import Mathlib

/-!
Verification of the Connect-4 solver (board.hpp, hash_table.hpp,
algorithm.cpp) against its natural-language specification.

The C++ sources are shallowly embedded below: bitboards are `Nat`
(all values stay far below `2 ^ 64`, and the only operations whose
C++ counterparts can wrap -- the shifts and multiplications inside
the hash mixers -- are reduced `% 2 ^ 64` explicitly), machine `int`
scores are unbounded `Int` (no reachable computation leaves the
`int` range), and the unbounded probing loops of the transposition
table are given `TABLE_SIZE` fuel: since the probe sequence
`i, i+step, ...` (mod 128) revisits its start after at most 128
steps, fuel exhaustion (`none`) is equivalent to divergence of the
C++ loop.  The wall clock (`steady_clock::now` in `solve`, and the
`getCurrentTime` helper used inside `negamax`, whose definition is
not part of the four sources) is modelled as an oracle
`clock : Nat → Nat` returning the elapsed duration observed at the
k-th clock read of the run.
-/

set_option maxRecDepth 8000

namespace Connect4

/-! ### Board (`board.hpp`, class `Position`) -/

def WIDTH : Nat := 7

def HEIGHT : Nat := 6

structure Position where
  currentPosition : Nat
  mask : Nat
  moves : Nat
deriving DecidableEq

/-- `board.hpp` `topMask`: single 1 on the top cell of a column. -/
def topMask (col : Nat) : Nat := (1 <<< (HEIGHT - 1)) <<< (col * (HEIGHT + 1))

/-- `board.hpp` `bottomMask`: single 1 on the bottom cell of a column. -/
def bottomMask (col : Nat) : Nat := 1 <<< (col * (HEIGHT + 1))

/-- `board.hpp` `columnMask`: 1 on all playable cells of a column. -/
def columnMask (col : Nat) : Nat := ((1 <<< HEIGHT) - 1) <<< (col * (HEIGHT + 1))

/-- `board.hpp` `canPlay`. -/
def Position.canPlay (p : Position) (col : Nat) : Bool :=
  p.mask &&& topMask col == 0

/-- `board.hpp` `play(int)`: flip to the opponent, drop a stone, count it. -/
def Position.play (p : Position) (col : Nat) : Position :=
  { currentPosition := p.currentPosition ^^^ p.mask
    mask := p.mask ||| (p.mask + bottomMask col)
    moves := p.moves + 1 }

/-- `board.hpp` `alignment`: shift-and-AND four-in-a-row test. -/
def alignment (pos : Nat) : Bool :=
  (let m := pos &&& (pos >>> (HEIGHT + 1)); m &&& (m >>> (2 * (HEIGHT + 1))) != 0) ||
  (let m := pos &&& (pos >>> HEIGHT); m &&& (m >>> (2 * HEIGHT)) != 0) ||
  (let m := pos &&& (pos >>> (HEIGHT + 2)); m &&& (m >>> (2 * (HEIGHT + 2))) != 0) ||
  (let m := pos &&& (pos >>> 1); m &&& (m >>> 2) != 0)

/-- `board.hpp` `isWinningMove`. -/
def Position.isWinningMove (p : Position) (col : Nat) : Bool :=
  alignment (p.currentPosition ||| ((p.mask + bottomMask col) &&& columnMask col))

/-- `board.hpp` `nbMoves`. -/
def Position.nbMoves (p : Position) : Nat := p.moves

/-- `board.hpp` `key`: `currentPosition + mask`. -/
def Position.key (p : Position) : Nat := p.currentPosition + p.mask

/-- `board.hpp` default constructor. -/
def Position.empty : Position := ⟨0, 0, 0⟩

/-- The 0-based column denoted by one character of a move sequence
(`seq[i] - '1'` in `board.hpp`, computed in `int`). -/
def charCol (c : Char) : Int := (c.toNat : Int) - 49

/-- `board.hpp` `play(std::string)`, on the character list: applies moves
left to right, stops at the first rejected character, returns the number
of characters consumed. -/
def playList (p : Position) : List Char → Nat
  | [] => 0
  | c :: cs =>
    if charCol c < 0 ∨ (WIDTH : Int) ≤ charCol c then 0
    else if ¬ p.canPlay (charCol c).toNat then 0
    else if p.isWinningMove (charCol c).toNat then 0
    else playList (p.play (charCol c).toNat) cs + 1

/-- `board.hpp` `play(std::string)`. -/
def Position.playSeq (p : Position) (seq : String) : Nat := playList p seq.data

/-- The position reached after the consumed prefix of a sequence
(the final value of `*this` in `play(std::string)`). -/
def playListPos (p : Position) : List Char → Position
  | [] => p
  | c :: cs =>
    if charCol c < 0 ∨ (WIDTH : Int) ≤ charCol c then p
    else if ¬ p.canPlay (charCol c).toNat then p
    else if p.isWinningMove (charCol c).toNat then p
    else playListPos (p.play (charCol c).toNat) cs

/-! ### Transposition table (`hash_table.hpp`) -/

def TABLE_SIZE : Nat := 128

def KEY_MASK : Nat := 2 ^ 56 - 1

structure Entry where
  key : Nat
  upperBound : Nat
deriving DecidableEq

structure TT where
  T : List Entry
deriving DecidableEq

/-- `T[i]` (out-of-range reads, which never occur, give the zero entry). -/
def entryAt (t : TT) (i : Nat) : Entry := t.T.getD i ⟨0, 0⟩

/-- `hash_table.hpp` `hashFunction1`, before the final reduction:
xor-shift avalanche then multiply, in `uint64_t`. -/
def mix1 (key : Nat) : Nat :=
  let k1 := key ^^^ (key >>> 21)
  let k2 := (k1 ^^^ (k1 <<< 37)) % 2 ^ 64
  let k3 := k2 ^^^ (k2 >>> 4)
  k3 * 0x165667919E3779F9 % 2 ^ 64

/-- `hash_table.hpp` `hashFunction1`. -/
def hashFunction1 (key : Nat) : Nat := mix1 key % TABLE_SIZE

/-- `hash_table.hpp` `hashFunction2`, before the final reduction. -/
def mix2 (key : Nat) : Nat :=
  let k1 := key ^^^ (key >>> 37)
  let k2 := (k1 ^^^ (k1 <<< 21)) % 2 ^ 64
  let k3 := k2 ^^^ (k2 >>> 35)
  k3 * 0x9E3779B97F4A7C15 % 2 ^ 64

/-- `hash_table.hpp` `hashFunction2`: forced into `[1, TABLE_SIZE-1]`. -/
def hashFunction2 (key : Nat) : Nat := 1 + mix2 key % (TABLE_SIZE - 1)

/-- The probing loop of `hash_table.hpp` `index`: walk
`i, i+step, ... (mod TABLE_SIZE)` until an empty slot or a slot holding
`key`.  The C++ loop is unbounded; `TABLE_SIZE` fuel is exact, because
after `TABLE_SIZE` steps the visited indices repeat, so `none` here is
exactly divergence of the C++ loop. -/
def probeAux (t : TT) (key step : Nat) : Nat → Nat → Option Nat
  | 0, _ => none
  | fuel + 1, i =>
    let e := entryAt t i
    if e.key = 0 ∨ e.key = key then some i
    else probeAux t key step fuel ((i + step) % TABLE_SIZE)

/-- `hash_table.hpp` `index`. -/
def ttIndex (t : TT) (key : Nat) : Option Nat :=
  probeAux t key (hashFunction2 key) TABLE_SIZE (hashFunction1 key)

/-- `hash_table.hpp` `put`.  The `assert(key < KEY_MASK)` is modelled as
failure (`none`) outside the asserted range; the 56-bit `key` bitfield
stores `key % 2 ^ 56`. -/
def TT.put (t : TT) (key val : Nat) : Option TT :=
  if key < KEY_MASK then
    (ttIndex t key).map fun i =>
      if (entryAt t i).key = key then ⟨t.T.set i ⟨(entryAt t i).key, val⟩⟩
      else ⟨t.T.set i ⟨key % 2 ^ 56, val⟩⟩
  else none

/-- The search loop of `hash_table.hpp` `get` after `index` has been
resolved: linear probing with wrap-around.  Same fuel convention as
`probeAux`. -/
def getLoop (t : TT) (key : Nat) : Nat → Nat → Option Nat
  | 0, _ => none
  | fuel + 1, i =>
    let e := entryAt t i
    if e.key ≠ 0 then
      if e.key = key then some e.upperBound
      else getLoop t key fuel ((i + 1) % TABLE_SIZE)
    else some 0

/-- `hash_table.hpp` `get`: 0 is the "not found" sentinel. -/
def TT.get (t : TT) (key : Nat) : Option Nat :=
  if key < KEY_MASK then (ttIndex t key).bind fun i => getLoop t key TABLE_SIZE i
  else none

/-- `hash_table.hpp` `reset` / the freshly constructed table: all slots
zeroed. -/
def resetTable : TT := ⟨List.replicate TABLE_SIZE ⟨0, 0⟩⟩

/-! ### Search engine (`algorithm.cpp`, class `Connect4Solver`) -/

/-- The mutable solver state threaded through one `solve` call:
`exploredNodeCount`, the number of clock reads made so far (the index
into the clock oracle), and the transposition table. -/
structure SState where
  nodes : Nat
  clk : Nat
  table : TT
deriving DecidableEq

/-- `algorithm.cpp`: static column order, center first. -/
def columnOrder : List Nat := [3, 2, 4, 1, 5, 0, 6]

/-- `algorithm.cpp` `Connect4Solver::isLosingMove`: play `move`, then for
each playable reply `col`, play it and test `isWinningMove(col)` on the
resulting position. -/
def isLosingMove (p : Position) (move : Nat) : Bool :=
  let nextPosition := p.play move
  (List.range WIDTH).any fun col =>
    nextPosition.canPlay col && (nextPosition.play col).isWinningMove col

/-- `std::numeric_limits<int>::min() + 1`, the initial alpha in `solve`. -/
def INT_MIN1 : Int := -2147483647

/-- `std::numeric_limits<int>::max()`, the initial beta in `solve`. -/
def INT_MAX : Int := 2147483647

/-- The column enumeration loop of `negamax`, over the remaining columns,
with the recursive call abstracted as `child` (it is instantiated with
`negamax` at one smaller depth).  After each non-cutoff iteration --
whether the column was explored or filtered -- the current alpha is
stored (as `uint8_t`, i.e. `% 256`) under the node's key; a beta cutoff
returns the score at once. -/
def nmLoop (child : Position → Int → Int → SState → Option (Int × SState))
    (p : Position) : List Nat → Int → Int → SState → Option (Int × SState)
  | [], alpha, _beta, st => some (alpha, st)
  | x :: rest, alpha, beta, st =>
    if p.canPlay x && !isLosingMove p x then
      match child (p.play x) (-beta) (-alpha) st with
      | none => none
      | some (s, st1) =>
        let score := -s
        if beta ≤ score then some (score, st1)
        else
          let alpha1 := if alpha < score then score else alpha
          match st1.table.put p.key (alpha1 % 256).toNat with
          | none => none
          | some t1 => nmLoop child p rest alpha1 beta { st1 with table := t1 }
    else
      match st.table.put p.key (alpha % 256).toNat with
      | none => none
      | some t1 => nmLoop child p rest alpha beta { st with table := t1 }

/-- `algorithm.cpp` `Connect4Solver::negamax`.  Order of the node prefix
as in the source: count the node, probe the cache (a nonzero stored
value short-circuits), terminal test (`depth == 0` or full board), time
check, then the column loop. -/
def negamax (tl : Nat) (clock : Nat → Nat) :
    Nat → Position → Int → Int → SState → Option (Int × SState)
  | 0, p, _alpha, _beta, st =>
    let st1 : SState := { st with nodes := st.nodes + 1 }
    match st1.table.get p.key with
    | none => none
    | some tt =>
      if tt ≠ 0 then some ((p.nbMoves : Int) - tt, st1)
      else some ((p.nbMoves : Int), st1)
  | d + 1, p, alpha, beta, st =>
    let st1 : SState := { st with nodes := st.nodes + 1 }
    match st1.table.get p.key with
    | none => none
    | some tt =>
      if tt ≠ 0 then some ((p.nbMoves : Int) - tt, st1)
      else if WIDTH * HEIGHT ≤ p.nbMoves then some ((p.nbMoves : Int), st1)
      else
        let e := clock st1.clk
        let st2 : SState := { st1 with clk := st1.clk + 1 }
        if tl ≤ e then some (0, st2)
        else nmLoop (negamax tl clock d) p columnOrder alpha beta st2

/-- The iterative-deepening loop of `algorithm.cpp` `solve`: `r` is the
number of depth iterations still allowed (`depthLimit - depth + 1`).
After each completed depth the clock is read once; if the limit is
reached the loop stops and the previous best is returned, otherwise the
just-computed score becomes the best. -/
def solveAux (tl : Nat) (clock : Nat → Nat) (p : Position) :
    Nat → Nat → Int → SState → Option (Int × SState)
  | 0, _depth, best, st => some (best, st)
  | r + 1, depth, best, st =>
    match negamax tl clock depth p INT_MIN1 INT_MAX st with
    | none => none
    | some (score, st1) =>
      let e := clock st1.clk
      let st2 : SState := { st1 with clk := st1.clk + 1 }
      if tl ≤ e then some (best, st2)
      else solveAux tl clock p r (depth + 1) score st2

/-- `algorithm.cpp` `Connect4Solver::solve`: zero the node counter,
create and reset one transposition table, start the deepening loop at
depth 1 with best score 0. -/
def solve (tl : Nat) (clock : Nat → Nat) (depthLimit : Nat) (p : Position) :
    Option (Int × SState) :=
  solveAux tl clock p depthLimit 1 0 ⟨0, 0, resetTable⟩

/-! ### Definitions taken from the specification's words

These do not embed source code; they state what the spec says, for
comparison with the embedded code. -/

/-- Modelled from the spec: the deepening loop as the spec describes it,
"re-running a full-window negamax at each depth using a freshly reset
Transposition Cache" -- i.e. every depth iteration starts from the reset
table instead of the table left by the previous depth. -/
def solveSpecAux (tl : Nat) (clock : Nat → Nat) (p : Position) :
    Nat → Nat → Int → SState → Option (Int × SState)
  | 0, _depth, best, st => some (best, st)
  | r + 1, depth, best, st =>
    match negamax tl clock depth p INT_MIN1 INT_MAX { st with table := resetTable } with
    | none => none
    | some (score, st1) =>
      let e := clock st1.clk
      let st2 : SState := { st1 with clk := st1.clk + 1 }
      if tl ≤ e then some (best, st2)
      else solveSpecAux tl clock p r (depth + 1) score st2

/-- Modelled from the spec: `solve` with a freshly reset cache per depth. -/
def solveSpecReset (tl : Nat) (clock : Nat → Nat) (depthLimit : Nat) (p : Position) :
    Option (Int × SState) :=
  solveSpecAux tl clock p depthLimit 1 0 ⟨0, 0, resetTable⟩

/-- Modelled from the spec: the one-ply loss filter as the spec words it --
after the current player plays `move`, is **any** of the opponent's legal
replies an immediate winning move for the opponent? -/
def isLosingMoveSpec (p : Position) (move : Nat) : Bool :=
  let nextPosition := p.play move
  (List.range WIDTH).any fun col =>
    nextPosition.canPlay col && nextPosition.isWinningMove col

/-- One iteration of the amended-C1 formulation of the deepening loop:
the accumulator carries a stopped flag, the tentative best score, and the
solver state whose table is threaded (never reset) across depths. -/
def solveFoldStep (tl : Nat) (clock : Nat → Nat) (p : Position)
    (acc : Option (Bool × Int × SState)) (depth : Nat) : Option (Bool × Int × SState) :=
  match acc with
  | none => none
  | some (stopped, best, st) =>
    if stopped then some (stopped, best, st)
    else
      match negamax tl clock depth p INT_MIN1 INT_MAX st with
      | none => none
      | some (score, st1) =>
        let e := clock st1.clk
        let st2 : SState := { st1 with clk := st1.clk + 1 }
        if tl ≤ e then some (true, best, st2)
        else some (false, score, st2)

/-- The amended C1 reading of `solve`: one table, created and reset once
before the loop, then threaded by a left fold over the depths
`1, ..., depthLimit`. -/
def solveOnceReset (tl : Nat) (clock : Nat → Nat) (depthLimit : Nat) (p : Position) :
    Option (Int × SState) :=
  ((List.range' 1 depthLimit).foldl (solveFoldStep tl clock p)
      (some (false, 0, ⟨0, 0, resetTable⟩))).map fun r => (r.2.1, r.2.2)

/-! ### Auxiliary notions for the table and board theorems -/

/-- The index visited by the probe sequence after `j` steps of size
`step` from `i0`. -/
def walkPos (i0 step : Nat) : Nat → Nat
  | 0 => i0
  | j + 1 => (walkPos i0 step j + step) % TABLE_SIZE

/-- The probing loop for `key` on table `t` runs forever: no amount of
fuel makes `probeAux` (the embedding of the C++ `while` loop in
`hash_table.hpp` `index`, with fuel counting loop iterations) reach an
empty or matching slot.  Every `put`/`get` of `key` on `t` diverges. -/
def probeDivergesFrom (t : TT) (key : Nat) : Prop :=
  ∀ fuel, probeAux t key (hashFunction2 key) fuel (hashFunction1 key) = none

/-- Slot `i` stops the probe for `key`: empty, or already holding `key`. -/
def slotStops (t : TT) (key i : Nat) : Prop :=
  (entryAt t i).key = 0 ∨ (entryAt t i).key = key

/-- After `m` probe steps for `key`, the probe finds the entry `⟨k, v⟩`,
and no earlier probe position stops the walk. -/
def GoodAt (t : TT) (k v m : Nat) : Prop :=
  entryAt t (walkPos (hashFunction1 k) (hashFunction2 k) m) = ⟨k, v⟩ ∧
  ∀ j, j < m → ¬ slotStops t k (walkPos (hashFunction1 k) (hashFunction2 k) j)

/-- A list of `put` operations applied in order (failure propagates). -/
def runPuts : TT → List (Nat × Nat) → Option TT
  | t, [] => some t
  | t, (k, v) :: ops =>
    match t.put k v with
    | none => none
    | some t1 => runPuts t1 ops

/-- The 7-bit field of column `c` in a bitboard: base-128 digit `c`. -/
def colField (x c : Nat) : Nat := x / 128 ^ c % 128

/-- Boards reachable from the empty board by playing playable columns. -/
inductive Reachable : Position → Prop
  | empty : Reachable Position.empty
  | play (p : Position) (c : Nat) : Reachable p → c < WIDTH → p.canPlay c = true →
      Reachable (p.play c)

/-- The board-representation invariant: the current player's stones are a
subset of the occupied cells, the board fits in `WIDTH` 7-bit columns,
each column field is a block `2 ^ h - 1` of `h ≤ HEIGHT` low bits, and
the move counter is the total stone count. -/
def Inv (p : Position) : Prop :=
  p.currentPosition &&& p.mask = p.currentPosition ∧
  p.mask < 128 ^ 7 ∧
  ∃ hs : Nat → Nat, (∀ c, hs c ≤ 6 ∧ colField p.mask c = 2 ^ hs c - 1) ∧
    p.moves = ∑ c ∈ Finset.range 7, hs c

/-! ### Concrete objects used by witnesses and counterexamples -/

/-- A clock oracle that always reads elapsed time 0. -/
def zeroClock : Nat → Nat := fun _ => 0

/-- The position after the move sequence `"4"`: one center stone. -/
def pos4 : Position := playListPos Position.empty ("4".data)

/-- The position after the move sequence `"12121"`: the side to move is
the second player, and the first player has three stones stacked in
column 0. -/
def pos12121 : Position := playListPos Position.empty ("12121".data)

/-- The reset table with `9` stored under `pos4.key`. -/
def tHit : TT := (resetTable.put pos4.key 9).getD resetTable

/-- The reset table with the value `0` stored under `pos4.key`: the slot
is occupied by the key, but the stored byte is the not-found sentinel. -/
def tZero : TT := (resetTable.put pos4.key 0).getD resetTable

/-- The table left by a completed depth-1 `negamax` on `pos4`. -/
def tFinal : TT := (resetTable.put pos4.key 254).getD resetTable

/-- The reset table after `put 78 1` and `put 10 1`: these two entries
block both slots of the period-2 probe cycle of key 198 (whose step
`hashFunction2 198 = 64` shares the factor 64 with the table size 128). -/
def tBlocked : TT := (runPuts resetTable [(78, 1), (10, 1)]).getD resetTable

/-- The reset table after `put 123 42` (as in the repository's test). -/
def t123 : TT := (resetTable.put 123 42).getD resetTable

/-- `t123` after an additional `put 456 99`. -/
def t123456 : TT := (t123.put 456 99).getD resetTable

/-- The reset table after `put 0 42`: the value lands in slot 0, whose
key field stays 0, i.e. "empty". -/
def tPut0 : TT := (resetTable.put 0 42).getD resetTable

/-! ## Claim C8: the string overload of `play` -/

/-- **C8**: the string overload of `play` applies moves left to right;
a character that is out of the column range (which includes every
non-digit), refers to a full column, or would be an immediate winning
move stops processing with the count of characters consumed so far,
and a valid character plays its column and counts one more; on the
empty board, `"7777777"` is rejected after exactly `HEIGHT = 6`
characters and `"4453"` consumes all 4 characters. -/
theorem c8_play_sequence :
    (∀ (p : Position) (c : Char) (cs : List Char),
      (charCol c < 0 ∨ (WIDTH : Int) ≤ charCol c ∨
        p.canPlay (charCol c).toNat = false ∨
        p.isWinningMove (charCol c).toNat = true) →
      playList p (c :: cs) = 0) ∧
    (∀ (p : Position) (c : Char) (cs : List Char),
      ¬ charCol c < 0 → ¬ (WIDTH : Int) ≤ charCol c →
      p.canPlay (charCol c).toNat = true →
      p.isWinningMove (charCol c).toNat = false →
      playList p (c :: cs) = playList (p.play (charCol c).toNat) cs + 1) ∧
    Position.empty.playSeq "7777777" = 6 ∧
    Position.empty.playSeq "4453" = 4 := by
  refine ⟨?_, ?_, by decide, by decide⟩
  · intro p c cs h
    simp only [playList]
    split_ifs with h1 h2 h3
    any_goals rfl
    exfalso
    rcases h with h | h | h | h
    · exact h1 (Or.inl h)
    · exact h1 (Or.inr h)
    · rw [h] at h2; exact Bool.noConfusion h2
    · exact h3 h
  · intro p c cs h1 h2 h3 h4
    simp only [playList]
    rw [if_neg (not_or.mpr ⟨h1, h2⟩), if_neg (not_not_intro h3), if_neg (by simp [h4])]

/-- Witness for C8: both parts applied at concrete inputs -- `'9'` is out
of range on the empty board, `'4'` is accepted. -/
theorem c8_witness :
    playList Position.empty ['9'] = 0 ∧
    playList Position.empty ['4'] = playList (Position.empty.play 3) [] + 1 :=
  ⟨c8_play_sequence.1 Position.empty '9' []
      (Or.inr (Or.inl (by decide))),
   c8_play_sequence.2.1 Position.empty '4' []
      (by decide) (by decide) (by decide) (by decide)⟩

/-! ## Claim C3: the per-depth time check in `solve` -/

/-- **C3**: in the deepening loop, if the clock read after a completed
depth shows the time limit reached, `solve` stops and returns the best
score carried in from the previous depths (the just-computed score is
discarded); in particular, if the check already fires after depth 1,
`solve` returns the neutral initial value 0. -/
theorem c3_timeout_returns_previous_depth :
    (∀ (tl : Nat) (clock : Nat → Nat) (p : Position) (r depth : Nat) (best score : Int)
        (st st1 : SState),
      negamax tl clock depth p INT_MIN1 INT_MAX st = some (score, st1) →
      tl ≤ clock st1.clk →
      solveAux tl clock p (r + 1) depth best st =
        some (best, { st1 with clk := st1.clk + 1 })) ∧
    (∀ (tl : Nat) (clock : Nat → Nat) (dl : Nat) (p : Position) (score : Int) (st1 : SState),
      1 ≤ dl →
      negamax tl clock 1 p INT_MIN1 INT_MAX ⟨0, 0, resetTable⟩ = some (score, st1) →
      tl ≤ clock st1.clk →
      solve tl clock dl p = some (0, { st1 with clk := st1.clk + 1 })) := by
  constructor
  · intro tl clock p r depth best score st st1 hneg ht
    simp [solveAux, hneg, ht]
  · intro tl clock dl p score st1 hdl hneg ht
    obtain ⟨r, rfl⟩ : ∃ r, dl = r + 1 := ⟨dl - 1, by omega⟩
    simp [solve, solveAux, hneg, ht]

/-- Witness for C3: with a zero time budget, depth 1 completes (its
in-node time check returns the neutral 0) and the per-depth check fires
at once, so `solve` returns the initial best 0. -/
theorem c3_witness :
    negamax 0 zeroClock 1 Position.empty INT_MIN1 INT_MAX ⟨0, 0, resetTable⟩ =
      some (0, ⟨1, 1, resetTable⟩) ∧
    solve 0 zeroClock 1 Position.empty = some (0, ⟨1, 2, resetTable⟩) :=
  ⟨by decide,
   c3_timeout_returns_previous_depth.2 0 zeroClock 1 Position.empty 0 ⟨1, 1, resetTable⟩
     (by decide) (by decide) (by decide)⟩

/-! ## Claim C6: the cache probe at the head of `negamax` -/

/-- Counterexample for C6 as stated: the cache *holds an entry* for
`pos4.key` (the slot is occupied by that key), but its stored value is
the byte 0, so `negamax` does **not** short-circuit: it runs the full
node (reading the clock, exploring children, writing the table) instead
of immediately returning `nbMoves - stored = 1`. -/
theorem c6_counterexample :
    (∃ i, i < TABLE_SIZE ∧ entryAt tZero i = ⟨pos4.key, 0⟩) ∧
    negamax 1000 zeroClock 1 pos4 (-5) 5 ⟨0, 0, tZero⟩ ≠
      some ((pos4.nbMoves : Int) - 0, ⟨1, 0, tZero⟩) := by
  constructor
  · exact ⟨121, by decide, by decide⟩
  · decide

/-- **C6 (amended)**: if the cache lookup for the board's key returns a
*nonzero* stored value (a stored 0 is indistinguishable from "absent"),
`negamax` immediately returns `nbMoves - stored`, with no terminal test,
no clock read, no recursion and no table write: the only state change is
the node counter. -/
theorem c6_cache_hit_short_circuits (tl : Nat) (clock : Nat → Nat) (depth : Nat)
    (p : Position) (alpha beta : Int) (st : SState) (v : Nat)
    (hget : st.table.get p.key = some v) (hv : v ≠ 0) :
    negamax tl clock depth p alpha beta st =
      some ((p.nbMoves : Int) - v, { st with nodes := st.nodes + 1 }) := by
  cases depth <;> simp [negamax, hget, hv]

/-- Witness for C6: a table holding 9 under `pos4.key` makes the depth-3
node return `1 - 9 = -8` at once, with unchanged clock index and table. -/
theorem c6_witness :
    tHit.get pos4.key = some 9 ∧ (9 : Nat) ≠ 0 ∧
    negamax 1000 zeroClock 3 pos4 (-5) 5 ⟨0, 0, tHit⟩ = some (-8, ⟨1, 0, tHit⟩) :=
  ⟨by decide, by decide,
   c6_cache_hit_short_circuits 1000 zeroClock 3 pos4 (-5) 5 ⟨0, 0, tHit⟩ 9
     (by decide) (by decide)⟩

/-! ## Claim C2: the one-ply loss filter -/

/-- **C2** is a code bug: in `pos12121` (after `"12121"`) the second
player is to move and the first player has three stones stacked in
column 0, so after any quiet move -- column 6 here, which is playable --
the opponent's reply in column 0 is an immediate winning move; the
spec-modelled filter says `true`, but the code's `isLosingMove` says
`false`, because after simulating the opponent's reply it tests
`isWinningMove` on the *resulting* position, i.e. whether the original
mover would win by playing the same column again one row higher,
contradicting its own comment "If the opponent can win on their next
move, this is a losing move". -/
theorem c2_loss_filter_wrong_player :
    pos12121.canPlay 6 = true ∧
    isLosingMove pos12121 6 = false ∧
    isLosingMoveSpec pos12121 6 = true := by
  refine ⟨by decide, by decide, by decide⟩

/-! ## Claim C1: one cache per `solve`, not one per depth -/

/-- Counterexample for C1 as stated: with a fresh cache per depth
(`solveSpecReset`, the spec's words) the two-depth search of `pos4`
scores 3, but the code's `solve` keeps the depth-1 table, whose stale
root entry (value 254, the `uint8_t` cast of the depth-1 alpha `-2`)
short-circuits the depth-2 root into `nbMoves - 254 = -253`.  Cache
entries therefore do survive from one depth iteration to the next. -/
theorem c1_counterexample :
    (solve 1000 zeroClock 2 pos4).map (fun a => a.1) = some (-253) ∧
    (solveSpecReset 1000 zeroClock 2 pos4).map (fun a => a.1) = some 3 ∧
    (solve 1000 zeroClock 2 pos4).map (fun a => a.1) ≠
      (solveSpecReset 1000 zeroClock 2 pos4).map (fun a => a.1) := by
  refine ⟨by decide, by decide, by decide⟩

/-- `List.foldl` over `solveFoldStep` propagates failure. -/
theorem foldl_solveFoldStep_none (tl : Nat) (clock : Nat → Nat) (p : Position) :
    ∀ l : List Nat, l.foldl (solveFoldStep tl clock p) none = none
  | [] => rfl
  | _ :: l => foldl_solveFoldStep_none tl clock p l

/-- `List.foldl` over `solveFoldStep` keeps a stopped accumulator. -/
theorem foldl_solveFoldStep_stopped (tl : Nat) (clock : Nat → Nat) (p : Position)
    (best : Int) (st : SState) :
    ∀ l : List Nat, l.foldl (solveFoldStep tl clock p) (some (true, best, st)) =
      some (true, best, st)
  | [] => rfl
  | _ :: l => foldl_solveFoldStep_stopped tl clock p best st l

/-- The deepening recursion equals the fold that threads one table. -/
theorem solveAux_eq_foldl (tl : Nat) (clock : Nat → Nat) (p : Position) :
    ∀ (r depth : Nat) (best : Int) (st : SState),
      solveAux tl clock p r depth best st =
        ((List.range' depth r).foldl (solveFoldStep tl clock p)
            (some (false, best, st))).map (fun a => (a.2.1, a.2.2)) := by
  intro r
  induction r with
  | zero => intro depth best st; rfl
  | succ r ih =>
    intro depth best st
    rw [List.range'_succ, List.foldl_cons]
    simp only [solveAux, solveFoldStep]
    cases hneg : negamax tl clock depth p INT_MIN1 INT_MAX st with
    | none => simp [foldl_solveFoldStep_none]
    | some v =>
      obtain ⟨score, st1⟩ := v
      by_cases ht : tl ≤ clock st1.clk
      · simp [ht, foldl_solveFoldStep_stopped]
      · simp [ht, ih]

/-- **C1 (amended)**: for every call, `solve` runs iterative deepening
from depth 1 up to `depthLimit` inclusive, re-running a full-window
negamax at each depth against a *single* transposition cache that is
created and reset once at the start of the `solve` call and then
threaded from each depth iteration to the next, so entries written at
one depth persist into the following depths of the same call. -/
theorem c1_single_reset_threaded_cache (tl : Nat) (clock : Nat → Nat) (dl : Nat)
    (p : Position) : solve tl clock dl p = solveOnceReset tl clock dl p :=
  solveAux_eq_foldl tl clock p dl 1 0 ⟨0, 0, resetTable⟩

/-! ## Transposition-table probe lemmas (shared by C4, C7, C9) -/

instance (t : TT) (key i : Nat) : Decidable (slotStops t key i) :=
  inferInstanceAs (Decidable (_ ∨ _))

theorem hashFunction1_lt (key : Nat) : hashFunction1 key < TABLE_SIZE :=
  Nat.mod_lt _ (by decide)

theorem walkPos_lt (i0 step : Nat) (h : i0 < TABLE_SIZE) :
    ∀ j, walkPos i0 step j < TABLE_SIZE
  | 0 => h
  | _ + 1 => Nat.mod_lt _ (by decide)

theorem walkPos_shift (i0 step : Nat) :
    ∀ j, walkPos i0 step (j + 1) = walkPos ((i0 + step) % TABLE_SIZE) step j
  | 0 => rfl
  | j + 1 => by
    show (walkPos i0 step (j + 1) + step) % TABLE_SIZE =
      (walkPos ((i0 + step) % TABLE_SIZE) step j + step) % TABLE_SIZE
    rw [walkPos_shift i0 step j]

/-- A slot returned by the probing loop stops the probe. -/
theorem probeAux_stops (t : TT) (key step : Nat) :
    ∀ fuel i r, probeAux t key step fuel i = some r → slotStops t key r := by
  intro fuel
  induction fuel with
  | zero => intro i r h; exact absurd h (by simp [probeAux])
  | succ fuel ih =>
    intro i r h
    simp only [probeAux] at h
    by_cases hs : (entryAt t i).key = 0 ∨ (entryAt t i).key = key
    · rw [if_pos hs] at h; cases h; exact hs
    · rw [if_neg hs] at h; exact ih _ _ h

/-- A successful probe reaches the first stopping position of the walk. -/
theorem probeAux_some_first (t : TT) (key step : Nat) :
    ∀ fuel i r, probeAux t key step fuel i = some r →
      ∃ m, m < fuel ∧ r = walkPos i step m ∧
        ∀ j, j < m → ¬ slotStops t key (walkPos i step j) := by
  intro fuel
  induction fuel with
  | zero => intro i r h; exact absurd h (by simp [probeAux])
  | succ fuel ih =>
    intro i r h
    simp only [probeAux] at h
    by_cases hs : (entryAt t i).key = 0 ∨ (entryAt t i).key = key
    · rw [if_pos hs] at h
      cases h
      exact ⟨0, Nat.succ_pos _, rfl, fun j hj => absurd hj (Nat.not_lt_zero j)⟩
    · rw [if_neg hs] at h
      obtain ⟨m, hm, hr, hpre⟩ := ih _ _ h
      refine ⟨m + 1, by omega, by rw [walkPos_shift]; exact hr, ?_⟩
      intro j hj
      cases j with
      | zero => exact hs
      | succ j => rw [walkPos_shift]; exact hpre j (by omega)

/-- Conversely the probe succeeds on the first stopping position. -/
theorem probeAux_finds_first (t : TT) (key step : Nat) :
    ∀ fuel i m, m < fuel → slotStops t key (walkPos i step m) →
      (∀ j, j < m → ¬ slotStops t key (walkPos i step j)) →
      probeAux t key step fuel i = some (walkPos i step m) := by
  intro fuel
  induction fuel with
  | zero => intro i m hm; omega
  | succ fuel ih =>
    intro i m hm hstop hpre
    simp only [probeAux]
    by_cases hs : (entryAt t i).key = 0 ∨ (entryAt t i).key = key
    · rw [if_pos hs]
      cases m with
      | zero => rfl
      | succ m' => exact absurd hs (hpre 0 (Nat.succ_pos _))
    · rw [if_neg hs]
      cases m with
      | zero => exact absurd hstop hs
      | succ m' =>
        rw [walkPos_shift]
        exact ih _ m' (by omega) (by rw [← walkPos_shift]; exact hstop)
          (fun j hj => by rw [← walkPos_shift]; exact hpre (j + 1) (by omega))

/-- If some position within the fuel budget stops the walk, the probe
terminates. -/
theorem probeAux_isSome_of_stops (t : TT) (key step fuel i : Nat)
    (h : ∃ j, j < fuel ∧ slotStops t key (walkPos i step j)) :
    (probeAux t key step fuel i).isSome := by
  obtain ⟨j, hj, hstop⟩ := h
  have hex : ∃ n, slotStops t key (walkPos i step n) := ⟨j, hstop⟩
  have hle : Nat.find hex ≤ j := Nat.find_min' hex hstop
  rw [probeAux_finds_first t key step fuel i (Nat.find hex) (by omega)
    (Nat.find_spec hex) (fun m hm => Nat.find_min hex hm)]
  rfl

theorem ttIndex_lt (t : TT) (k i : Nat) (h : ttIndex t k = some i) : i < TABLE_SIZE := by
  obtain ⟨m, _, hr, _⟩ := probeAux_some_first t k _ _ _ _ h
  exact hr ▸ walkPos_lt _ _ (hashFunction1_lt k) m

theorem entryAt_set_self (t : TT) (i : Nat) (e : Entry) (h : i < t.T.length) :
    entryAt ⟨t.T.set i e⟩ i = e := by
  simp [entryAt, List.getD_eq_getElem?_getD, List.getElem?_set_self (by simpa using h)]

theorem entryAt_set_ne (t : TT) (i j : Nat) (e : Entry) (h : i ≠ j) :
    entryAt ⟨t.T.set i e⟩ j = entryAt t j := by
  simp [entryAt, List.getD_eq_getElem?_getD, List.getElem?_set_ne h]

/-- A slot of a written table holds either the new entry or the old one. -/
theorem entryAt_set (t : TT) (i j : Nat) (e : Entry) :
    entryAt ⟨t.T.set i e⟩ j = e ∨ entryAt ⟨t.T.set i e⟩ j = entryAt t j := by
  by_cases he : i = j
  · subst he
    by_cases hi : i < t.T.length
    · exact Or.inl (entryAt_set_self t i e hi)
    · right
      have hset : t.T.set i e = t.T := List.set_eq_of_length_le (by omega)
      simp only [entryAt, hset]
  · exact Or.inr (entryAt_set_ne t i j e he)

theorem entryAt_reset (i : Nat) : entryAt resetTable i = ⟨0, 0⟩ := by
  simp only [entryAt, resetTable, List.getD_eq_getElem?_getD, List.getElem?_replicate]
  split <;> rfl

theorem resetTable_length : resetTable.T.length = TABLE_SIZE := by
  simp [resetTable]

theorem put_some_lt (t : TT) (k v : Nat) (t' : TT) (h : t.put k v = some t') :
    k < KEY_MASK := by
  by_contra hk
  simp [TT.put, hk] at h

/-- A successful `put` writes exactly the entry `⟨k, v⟩` at the probed
slot (both branches of the C++ `put` coincide there). -/
theorem put_eq_set (t : TT) (k v : Nat) (t' : TT) (h : t.put k v = some t') :
    ∃ i, ttIndex t k = some i ∧ slotStops t k i ∧ t' = ⟨t.T.set i ⟨k, v⟩⟩ := by
  have hk := put_some_lt t k v t' h
  rw [TT.put, if_pos hk] at h
  cases hidx : ttIndex t k with
  | none => rw [hidx] at h; cases h
  | some i =>
    rw [hidx] at h
    simp only [Option.map_some', Option.some.injEq] at h
    refine ⟨i, rfl, probeAux_stops t k _ _ _ _ hidx, ?_⟩
    have hmod : k % 2 ^ 56 = k := by
      have : KEY_MASK ≤ 2 ^ 56 := Nat.sub_le _ _
      exact Nat.mod_eq_of_lt (by omega)
    by_cases hsame : (entryAt t i).key = k
    · rw [if_pos hsame] at h; rw [← h, hsame]
    · rw [if_neg hsame] at h; rw [← h, hmod]

theorem put_length (t : TT) (k v : Nat) (t' : TT) (h : t.put k v = some t') :
    t'.T.length = t.T.length := by
  obtain ⟨i, _, _, rfl⟩ := put_eq_set t k v t' h
  simp

/-- After a successful `put k v`, the probe path for `k` reaches the
fresh entry and no earlier path position stops the walk. -/
theorem put_goodAt (t : TT) (k v : Nat) (t' : TT) (hlen : t.T.length = TABLE_SIZE)
    (h : t.put k v = some t') :
    ∃ m, m < TABLE_SIZE ∧ GoodAt t' k v m := by
  obtain ⟨i, hidx, hstop, rfl⟩ := put_eq_set t k v t' h
  obtain ⟨m, hm, rfl, hpre⟩ := probeAux_some_first t k _ _ _ _ hidx
  refine ⟨m, hm, ?_, ?_⟩
  · exact entryAt_set_self t _ _ (by rw [hlen]; exact walkPos_lt _ _ (hashFunction1_lt k) m)
  · intro j hj
    have hne : walkPos (hashFunction1 k) (hashFunction2 k) m ≠
        walkPos (hashFunction1 k) (hashFunction2 k) j := by
      intro heq
      exact hpre j hj (heq ▸ hstop)
    unfold slotStops
    rw [entryAt_set_ne t _ _ _ hne]
    exact hpre j hj

/-- A successful `put` under a different nonzero-distinct key does not
disturb the probe path of `k`. -/
theorem put_preserves_goodAt (t : TT) (k v m k' v' : Nat) (t' : TT)
    (hlen : t.T.length = TABLE_SIZE) (hk0 : k ≠ 0) (hkk : k' ≠ k)
    (hg : GoodAt t k v m) (h : t.put k' v' = some t') : GoodAt t' k v m := by
  obtain ⟨i', hidx', hstop', rfl⟩ := put_eq_set t k' v' t' h
  obtain ⟨hentry, hpre⟩ := hg
  constructor
  · have hne : i' ≠ walkPos (hashFunction1 k) (hashFunction2 k) m := by
      intro he
      rw [he] at hstop'
      unfold slotStops at hstop'
      rw [hentry] at hstop'
      rcases hstop' with h0 | hkeq
      · exact hk0 h0
      · exact hkk hkeq.symm
    rw [entryAt_set_ne t _ _ _ hne, hentry]
  · intro j hj
    by_cases he : i' = walkPos (hashFunction1 k) (hashFunction2 k) j
    · unfold slotStops
      rw [← he, entryAt_set_self t _ _ (by rw [hlen]; exact ttIndex_lt t k' i' hidx')]
      rintro (h0 | hkeq)
      · subst h0
        have hkey0 : (entryAt t i').key = 0 := by
          rcases hstop' with h | h
          · exact h
          · exact h
        exact hpre j hj (Or.inl (by rw [← he]; exact hkey0))
      · exact hkk hkeq
    · unfold slotStops
      rw [entryAt_set_ne t _ _ _ he]
      exact hpre j hj

/-- From a found probe path, `get` returns the stored value. -/
theorem get_of_goodAt (t : TT) (k v m : Nat) (hk0 : k ≠ 0) (hk : k < KEY_MASK)
    (hm : m < TABLE_SIZE) (hg : GoodAt t k v m) : t.get k = some v := by
  obtain ⟨hentry, hpre⟩ := hg
  have hstop : slotStops t k (walkPos (hashFunction1 k) (hashFunction2 k) m) :=
    Or.inr (by rw [hentry])
  have hidx : ttIndex t k =
      some (walkPos (hashFunction1 k) (hashFunction2 k) m) :=
    probeAux_finds_first t k _ _ _ m hm hstop hpre
  rw [TT.get, if_pos hk, hidx]
  show getLoop t k TABLE_SIZE _ = some v
  rw [show TABLE_SIZE = 127 + 1 from rfl, getLoop]
  simp [hentry, hk0]

/-- `get` right after a successful `put` returns the value just stored. -/
theorem get_after_put (t t' : TT) (k v : Nat) (hlen : t.T.length = TABLE_SIZE)
    (hk0 : k ≠ 0) (h : t.put k v = some t') : t'.get k = some v := by
  obtain ⟨m, hm, hg⟩ := put_goodAt t k v t' hlen h
  exact get_of_goodAt t' k v m hk0 (put_some_lt t k v t' h) hm hg

theorem runPuts_length : ∀ (ops : List (Nat × Nat)) (t t' : TT),
    runPuts t ops = some t' → t'.T.length = t.T.length := by
  intro ops
  induction ops with
  | nil => intro t t' h; cases h; rfl
  | cons e ops ih =>
    intro t t' h
    obtain ⟨k, v⟩ := e
    simp only [runPuts] at h
    cases hput : t.put k v with
    | none => rw [hput] at h; cases h
    | some t1 => rw [hput] at h; rw [ih t1 t' h, put_length t k v t1 hput]

/-- A sequence of successful puts under other keys preserves a found
probe path. -/
theorem runPuts_preserves_goodAt : ∀ (ops : List (Nat × Nat)) (t t' : TT) (k v m : Nat),
    t.T.length = TABLE_SIZE → k ≠ 0 → (∀ e ∈ ops, e.1 ≠ k) →
    GoodAt t k v m → runPuts t ops = some t' → GoodAt t' k v m := by
  intro ops
  induction ops with
  | nil => intro t t' k v m _ _ _ hg h; cases h; exact hg
  | cons e ops ih =>
    intro t t' k v m hlen hk0 hops hg h
    obtain ⟨k', v'⟩ := e
    simp only [runPuts] at h
    cases hput : t.put k' v' with
    | none => rw [hput] at h; cases h
    | some t1 =>
      rw [hput] at h
      have hkk : k' ≠ k := hops (k', v') (by simp)
      exact ih t1 t' k v m (by rw [put_length t k' v' t1 hput, hlen]) hk0
        (fun e he => hops e (List.mem_cons_of_mem _ he))
        (put_preserves_goodAt t k v m k' v' t1 hlen hk0 hkk hg hput) h

/-- A successful `put` under a key other than `k` never creates a slot
keyed `k`. -/
theorem put_no_key (t t' : TT) (k k' v' : Nat) (hkk : k' ≠ k)
    (hall : ∀ i, (entryAt t i).key ≠ k) (h : t.put k' v' = some t') :
    ∀ i, (entryAt t' i).key ≠ k := by
  obtain ⟨i', _, _, rfl⟩ := put_eq_set t k' v' t' h
  intro i
  rcases entryAt_set t i' i ⟨k', v'⟩ with he | he
  · rw [he]; exact hkk
  · rw [he]; exact hall i

theorem runPuts_no_key : ∀ (ops : List (Nat × Nat)) (t t' : TT) (k : Nat),
    (∀ i, (entryAt t i).key ≠ k) → (∀ e ∈ ops, e.1 ≠ k) →
    runPuts t ops = some t' → ∀ i, (entryAt t' i).key ≠ k := by
  intro ops
  induction ops with
  | nil => intro t t' k hall _ h; cases h; exact hall
  | cons e ops ih =>
    intro t t' k hall hops h
    obtain ⟨k', v'⟩ := e
    simp only [runPuts] at h
    cases hput : t.put k' v' with
    | none => rw [hput] at h; cases h
    | some t1 =>
      rw [hput] at h
      exact ih t1 t' k (put_no_key t t1 k k' v' (hops (k', v') (by simp)) hall hput)
        (fun e he => hops e (List.mem_cons_of_mem _ he)) h

/-- If no slot of `t` is keyed `k`, a terminating `get k` returns 0. -/
theorem get_absent (t : TT) (k x : Nat) (hall : ∀ i, (entryAt t i).key ≠ k)
    (h : t.get k = some x) : x = 0 := by
  rw [TT.get] at h
  by_cases hk : k < KEY_MASK
  · rw [if_pos hk] at h
    cases hidx : ttIndex t k with
    | none => rw [hidx] at h; cases h
    | some i =>
      rw [hidx] at h
      have hstop := probeAux_stops t k _ _ _ _ hidx
      have hkey0 : (entryAt t i).key = 0 := by
        rcases hstop with h0 | hkeq
        · exact h0
        · exact absurd hkeq (hall i)
      rw [show ((some i).bind fun j => getLoop t k TABLE_SIZE j) =
          getLoop t k TABLE_SIZE i from rfl] at h
      rw [show TABLE_SIZE = 127 + 1 from rfl, getLoop] at h
      simp [hkey0] at h
      exact h.symm
  · rw [if_neg hk] at h; cases h

/-- A terminating `get 0` returns 0: key 0 doubles as the empty-slot
marker, so the probe can only stop on an "empty" slot. -/
theorem get_key_zero (t : TT) (x : Nat) (h : t.get 0 = some x) : x = 0 := by
  rw [TT.get, if_pos (by decide)] at h
  cases hidx : ttIndex t 0 with
  | none => rw [hidx] at h; cases h
  | some i =>
    rw [hidx] at h
    have hkey0 : (entryAt t i).key = 0 := by
      rcases probeAux_stops t 0 _ _ _ _ hidx with h0 | h0 <;> exact h0
    rw [show ((some i).bind fun j => getLoop t 0 TABLE_SIZE j) =
        getLoop t 0 TABLE_SIZE i from rfl] at h
    rw [show TABLE_SIZE = 127 + 1 from rfl, getLoop] at h
    simp [hkey0] at h
    exact h.symm

/-! ## Claim C4: cache correctness -/

/-- Counterexample for C4 as stated: `k = 0` is a 56-bit key and `v = 42`
an 8-bit value, yet `get 0` after `put 0 42` (with no intervening
operation at all) returns 0, not 42 -- key 0 is the empty-slot marker,
so its entry is written but never found. -/
theorem c4_counterexample :
    resetTable.put 0 42 = some tPut0 ∧ tPut0.get 0 = some 0 ∧
    tPut0.get 0 ≠ some 42 := by
  refine ⟨by decide, by decide, by decide⟩

/-- **C4 (amended)**: over any successful operation history started from
the reset table, (1) for a *nonzero* key `k`: `get k` after `put k v`
returns `v`, also across later puts under other keys (no intervening put
under `k`, no reset); (2) `get` on a key never inserted returns 0
whenever its probe terminates; (3) on the reset table, `get` returns 0
for every key in the asserted range. -/
theorem c4_cache_correctness :
    (∀ (ops1 ops2 : List (Nat × Nat)) (k v : Nat) (t1 t2 t3 : TT),
      runPuts resetTable ops1 = some t1 →
      t1.put k v = some t2 →
      runPuts t2 ops2 = some t3 →
      (∀ e ∈ ops2, e.1 ≠ k) →
      k ≠ 0 →
      t3.get k = some v) ∧
    (∀ (ops : List (Nat × Nat)) (k x : Nat) (t : TT),
      runPuts resetTable ops = some t →
      (∀ e ∈ ops, e.1 ≠ k) →
      t.get k = some x → x = 0) ∧
    (∀ k, k < KEY_MASK → resetTable.get k = some 0) := by
  refine ⟨?_, ?_, ?_⟩
  · intro ops1 ops2 k v t1 t2 t3 h1 h2 h3 hops2 hk0
    have hlen1 : t1.T.length = TABLE_SIZE := by
      rw [runPuts_length ops1 resetTable t1 h1, resetTable_length]
    have hlen2 : t2.T.length = TABLE_SIZE := by
      rw [put_length t1 k v t2 h2, hlen1]
    obtain ⟨m, hm, hg⟩ := put_goodAt t1 k v t2 hlen1 h2
    have hg3 := runPuts_preserves_goodAt ops2 t2 t3 k v m hlen2 hk0 hops2 hg h3
    exact get_of_goodAt t3 k v m hk0 (put_some_lt t1 k v t2 h2) hm hg3
  · intro ops k x t hops hkeys hget
    by_cases hk0 : k = 0
    · exact get_key_zero t x (hk0 ▸ hget)
    · exact get_absent t k x
        (runPuts_no_key ops resetTable t k
          (fun i => by rw [entryAt_reset]; exact fun h => hk0 h.symm) hkeys hops) hget
  · intro k hk
    rw [TT.get, if_pos hk]
    have hidx : ttIndex resetTable k = some (hashFunction1 k) := by
      rw [ttIndex, show TABLE_SIZE = 127 + 1 from rfl, probeAux]
      rw [if_pos (Or.inl (by rw [entryAt_reset]))]
    rw [hidx]
    rw [show ((some (hashFunction1 k)).bind fun j => getLoop resetTable k TABLE_SIZE j) =
        getLoop resetTable k TABLE_SIZE (hashFunction1 k) from rfl]
    rw [show TABLE_SIZE = 127 + 1 from rfl, getLoop]
    simp [entryAt_reset]

/-- Witness for C4: the test file's scenario -- `put 123 42`, then an
unrelated `put 456 99`, then `get 123` yields 42; and `get` on the reset
table yields 0. -/
theorem c4_witness :
    runPuts resetTable [] = some resetTable ∧
    resetTable.put 123 42 = some t123 ∧
    runPuts t123 [(456, 99)] = some t123456 ∧
    (∀ e ∈ [((456 : Nat), (99 : Nat))], e.1 ≠ 123) ∧ (123 : Nat) ≠ 0 ∧
    t123456.get 123 = some 42 ∧
    (7 : Nat) < KEY_MASK ∧ resetTable.get 7 = some 0 :=
  ⟨rfl, by decide, by decide, by decide, by decide,
   c4_cache_correctness.1 [] [(456, 99)] 123 42 resetTable t123 t123456
     rfl (by decide) (by decide) (by decide) (by decide),
   by decide,
   c4_cache_correctness.2.2 7 (by decide)⟩

/-! ## Claim C7: termination of `put` and `get` -/

/-- On `tBlocked`, the probe for key 198 cycles between slots 122 and 58
(step `hashFunction2 198 = 64`), both occupied by other keys. -/
theorem tBlocked_cycle : ∀ (fuel : Nat) (i : Nat), i = 122 ∨ i = 58 →
    probeAux tBlocked 198 64 fuel i = none := by
  intro fuel
  induction fuel with
  | zero => intro i _; rfl
  | succ fuel ih =>
    intro i hi
    rcases hi with rfl | rfl
    · rw [probeAux, if_neg (by decide)]
      exact ih _ (Or.inr (by decide))
    · rw [probeAux, if_neg (by decide)]
      exact ih _ (Or.inl (by decide))

/-- Counterexample for C7 as stated: after the two ordinary successful
puts that build `tBlocked`, the probe step for key 198 is 64, which is
*not* coprime with the table size 128; its probe walk visits only the
two occupied slots 122 and 58, so the C++ `while` loop of `index` -- and
hence both `get 198` and `put 198` -- never terminates. -/
theorem c7_counterexample :
    runPuts resetTable [(78, 1), (10, 1)] = some tBlocked ∧
    hashFunction2 198 = 64 ∧
    Nat.gcd (hashFunction2 198) TABLE_SIZE ≠ 1 ∧
    probeDivergesFrom tBlocked 198 ∧
    tBlocked.get 198 = none ∧
    tBlocked.put 198 5 = none := by
  refine ⟨by decide, by decide, by decide, ?_, by decide, by decide⟩
  intro fuel
  have h2 : hashFunction2 198 = 64 := by decide
  have h1 : hashFunction1 198 = 122 := by decide
  rw [h1, h2]
  exact tBlocked_cycle fuel 122 (Or.inl rfl)

/-- Once a stopping slot exists, `getLoop` also terminates at it. -/
theorem getLoop_of_stops (t : TT) (key i : Nat) (h : slotStops t key i) :
    (getLoop t key TABLE_SIZE i).isSome := by
  rw [show TABLE_SIZE = 127 + 1 from rfl, getLoop]
  rcases h with h0 | hk
  · simp [h0]
  · by_cases h0 : (entryAt t i).key = 0
    · simp [h0]
    · simp only [h0, hk]
      simp only [ite_not]
      split <;> rfl

/-- **C7 (amended)**: the second-hash step always lies in
`[1, TABLE_SIZE - 1]`, so it is never 0, but it need not be coprime with
the table size; `put` and `get` terminate exactly when some position of
the probe walk within `TABLE_SIZE` steps is an empty slot or holds the
key -- a probe walk whose visited slots are all occupied by other keys
loops forever. -/
theorem c7_probe_termination :
    (∀ key, 1 ≤ hashFunction2 key ∧ hashFunction2 key ≤ TABLE_SIZE - 1) ∧
    (∀ (t : TT) (key v : Nat), key < KEY_MASK →
      (∃ j, j < TABLE_SIZE ∧
        slotStops t key (walkPos (hashFunction1 key) (hashFunction2 key) j)) →
      (t.get key).isSome ∧ (t.put key v).isSome) := by
  constructor
  · intro key
    unfold hashFunction2
    have : mix2 key % (TABLE_SIZE - 1) < TABLE_SIZE - 1 := Nat.mod_lt _ (by decide)
    omega
  · intro t key v hk hex
    have hsome : (ttIndex t key).isSome :=
      probeAux_isSome_of_stops t key (hashFunction2 key) TABLE_SIZE (hashFunction1 key) hex
    obtain ⟨i, hidx⟩ := Option.isSome_iff_exists.mp hsome
    constructor
    · rw [TT.get, if_pos hk, hidx]
      exact getLoop_of_stops t key i (probeAux_stops t key _ _ _ _ hidx)
    · rw [TT.put, if_pos hk, hidx]
      rfl

/-- Witness for C7: on the reset table, the very first probe position of
key 5 is an empty slot, so `get 5` and `put 5 7` terminate. -/
theorem c7_witness :
    (5 : Nat) < KEY_MASK ∧
    (0 < TABLE_SIZE ∧ slotStops resetTable 5 (walkPos (hashFunction1 5) (hashFunction2 5) 0)) ∧
    (resetTable.get 5).isSome ∧ (resetTable.put 5 7).isSome :=
  ⟨by decide, ⟨by decide, Or.inl (by rw [entryAt_reset])⟩,
   (c7_probe_termination.2 resetTable 5 7 (by decide)
     ⟨0, by decide, Or.inl (by rw [entryAt_reset])⟩).1,
   (c7_probe_termination.2 resetTable 5 7 (by decide)
     ⟨0, by decide, Or.inl (by rw [entryAt_reset])⟩).2⟩

/-! ## Claim C9: the per-iteration alpha write -/

/-- The column loop preserves the table size when the recursive call
does. -/
theorem nmLoop_length (child : Position → Int → Int → SState → Option (Int × SState))
    (hc : ∀ (q : Position) (a b : Int) (s : SState) (x : Int) (s1 : SState),
      child q a b s = some (x, s1) → s1.table.T.length = s.table.T.length)
    (p : Position) :
    ∀ (cols : List Nat) (alpha beta : Int) (st : SState) (r : Int) (st' : SState),
      nmLoop child p cols alpha beta st = some (r, st') →
      st'.table.T.length = st.table.T.length := by
  intro cols
  induction cols with
  | nil => intro alpha beta st r st' h; cases h; rfl
  | cons x rest ih =>
    intro alpha beta st r st' h
    simp only [nmLoop] at h
    by_cases hcond : (p.canPlay x && !isLosingMove p x) = true
    · rw [if_pos hcond] at h
      cases hch : child (p.play x) (-beta) (-alpha) st with
      | none => rw [hch] at h; cases h
      | some v =>
        obtain ⟨s, st1⟩ := v
        rw [hch] at h
        simp only at h
        by_cases hcut : beta ≤ -s
        · rw [if_pos hcut] at h
          cases h
          exact hc _ _ _ _ _ _ hch
        · rw [if_neg hcut] at h
          cases hput : st1.table.put p.key
              (((if alpha < -s then -s else alpha) % 256).toNat) with
          | none => rw [hput] at h; cases h
          | some t1 =>
            rw [hput] at h
            have h1 := ih _ _ _ _ _ h
            have h2 := put_length _ _ _ _ hput
            have h3 := hc _ _ _ _ _ _ hch
            simp only at h1 h2
            omega
    · rw [if_neg hcond] at h
      cases hput : st.table.put p.key ((alpha % 256).toNat) with
      | none => rw [hput] at h; cases h
      | some t1 =>
        rw [hput] at h
        have h1 := ih _ _ _ _ _ h
        have h2 := put_length _ _ _ _ hput
        simp only at h1 h2
        omega

/-- `negamax` preserves the table size. -/
theorem negamax_length (tl : Nat) (clock : Nat → Nat) :
    ∀ (d : Nat) (p : Position) (a b : Int) (st : SState) (r : Int) (st' : SState),
      negamax tl clock d p a b st = some (r, st') →
      st'.table.T.length = st.table.T.length := by
  intro d
  induction d with
  | zero =>
    intro p a b st r st' h
    simp only [negamax] at h
    cases hget : ({ st with nodes := st.nodes + 1 } : SState).table.get p.key with
    | none => rw [hget] at h; cases h
    | some tt =>
      rw [hget] at h
      simp only at h
      by_cases htt : tt ≠ 0
      · rw [if_pos htt] at h; cases h; rfl
      · rw [if_neg htt] at h; cases h; rfl
  | succ d ih =>
    intro p a b st r st' h
    simp only [negamax] at h
    cases hget : ({ st with nodes := st.nodes + 1 } : SState).table.get p.key with
    | none => rw [hget] at h; cases h
    | some tt =>
      rw [hget] at h
      simp only at h
      by_cases htt : tt ≠ 0
      · rw [if_pos htt] at h; cases h; rfl
      · rw [if_neg htt] at h
        by_cases hfull : WIDTH * HEIGHT ≤ p.nbMoves
        · rw [if_pos hfull] at h; cases h; rfl
        · rw [if_neg hfull] at h
          by_cases htime : tl ≤ clock ({ st with nodes := st.nodes + 1 } : SState).clk
          · rw [if_pos htime] at h; cases h; rfl
          · rw [if_neg htime] at h
            have := nmLoop_length _ ih p _ _ _ _ _ _ h
            simpa using this

/-- The core of C9: if the column loop runs to completion without a beta
cutoff (the returned value is below beta), the last per-iteration write
leaves the final bound (cast to `uint8_t`) under the node's key. -/
theorem nmLoop_final_write (child : Position → Int → Int → SState → Option (Int × SState))
    (hc : ∀ (q : Position) (a b : Int) (s : SState) (x : Int) (s1 : SState),
      child q a b s = some (x, s1) → s1.table.T.length = s.table.T.length)
    (p : Position) (beta : Int) (hk : p.key ≠ 0) :
    ∀ (cols : List Nat) (alpha r : Int) (st st' : SState),
      st.table.T.length = TABLE_SIZE → alpha < beta →
      nmLoop child p cols alpha beta st = some (r, st') → r < beta →
      st'.table.get p.key = some ((r % 256).toNat) ∨
        (cols = [] ∧ r = alpha ∧ st' = st) := by
  intro cols
  induction cols with
  | nil =>
    intro alpha r st st' _ _ h _
    cases h
    exact Or.inr ⟨rfl, rfl, rfl⟩
  | cons x rest ih =>
    intro alpha r st st' hlen hab h hnc
    simp only [nmLoop] at h
    by_cases hcond : (p.canPlay x && !isLosingMove p x) = true
    · rw [if_pos hcond] at h
      cases hch : child (p.play x) (-beta) (-alpha) st with
      | none => rw [hch] at h; cases h
      | some v =>
        obtain ⟨s, st1⟩ := v
        rw [hch] at h
        simp only at h
        by_cases hcut : beta ≤ -s
        · rw [if_pos hcut] at h
          cases h
          omega
        · rw [if_neg hcut] at h
          cases hput : st1.table.put p.key
              (((if alpha < -s then -s else alpha) % 256).toNat) with
          | none => rw [hput] at h; cases h
          | some t1 =>
            rw [hput] at h
            have hlen1 : st1.table.T.length = TABLE_SIZE := by
              rw [hc _ _ _ _ _ _ hch]; exact hlen
            have hlen2 : t1.T.length = TABLE_SIZE := by
              rw [put_length _ _ _ _ hput]; exact hlen1
            have hab1 : (if alpha < -s then -s else alpha) < beta := by
              split <;> omega
            rcases ih _ _ _ _ hlen2 hab1 h hnc with hl | ⟨_, hr, hst⟩
            · exact Or.inl hl
            · subst hr
              rw [hst]
              exact Or.inl (get_after_put st1.table t1 p.key _ hlen1 hk hput)
    · rw [if_neg hcond] at h
      cases hput : st.table.put p.key ((alpha % 256).toNat) with
      | none => rw [hput] at h; cases h
      | some t1 =>
        rw [hput] at h
        have hlen2 : t1.T.length = TABLE_SIZE := by
          rw [put_length _ _ _ _ hput]; exact hlen
        rcases ih _ _ _ _ hlen2 hab h hnc with hl | ⟨_, hr, hst⟩
        · exact Or.inl hl
        · subst hr
          rw [hst]
          exact Or.inl (get_after_put st.table t1 p.key _ hlen hk hput)

/-- Counterexample for C9 as stated: at the depth-1 node `pos4` with
window `(-5, -2)`, the first column of the order, 3, is playable and not
filtered, so it *is* considered, but its recursion triggers a beta
cutoff and `negamax` returns `-2` immediately: no alpha write follows
that iteration -- the final table is still the reset table, holding
nothing under the node's key instead of the claimed final bound. -/
theorem c9_counterexample :
    pos4.canPlay 3 = true ∧ isLosingMove pos4 3 = false ∧
    negamax 1000 zeroClock 1 pos4 (-5) (-2) ⟨0, 0, resetTable⟩ =
      some (-2, ⟨2, 1, resetTable⟩) ∧
    resetTable.get pos4.key = some 0 ∧
    resetTable.get pos4.key ≠ some (((-2 : Int) % 256).toNat) := by
  refine ⟨by decide, by decide, by decide, by decide, by decide⟩

/-- **C9 (amended)**: in a negamax node's column loop, after every
iteration that does not end in a beta cutoff -- whether the column was
filtered, unplayable, or explored -- the current alpha (cast to
`uint8_t`) is written under the node's key; hence when the loop
completes without a cutoff (equivalently, when the returned value is
below beta), the last write reflects the node's final bound.  A beta
cutoff returns from inside the loop without a further write. -/
theorem c9_final_bound_written (child : Position → Int → Int → SState → Option (Int × SState))
    (p : Position) (cols : List Nat) (alpha beta r : Int) (st st' : SState)
    (hc : ∀ (q : Position) (a b : Int) (s : SState) (x : Int) (s1 : SState),
      child q a b s = some (x, s1) → s1.table.T.length = s.table.T.length)
    (hlen : st.table.T.length = TABLE_SIZE) (hk : p.key ≠ 0)
    (hab : alpha < beta) (hcols : cols ≠ [])
    (hrun : nmLoop child p cols alpha beta st = some (r, st')) (hnc : r < beta) :
    st'.table.get p.key = some ((r % 256).toNat) := by
  rcases nmLoop_final_write child hc p beta hk cols alpha r st st' hlen hab hrun hnc with
    h | ⟨hnil, _, _⟩
  · exact h
  · exact absurd hnil hcols

/-- Witness for C9: the full depth-1 column loop on `pos4` (no cutoff,
window `(-5, 5)`) returns `-2` and leaves `254 = -2 mod 256` in the
table under `pos4.key`. -/
theorem c9_witness :
    ((-2 : Int) % 256).toNat = 254 ∧
    nmLoop (negamax 1000 zeroClock 0) pos4 columnOrder (-5) 5 ⟨1, 1, resetTable⟩ =
      some (-2, ⟨8, 1, tFinal⟩) ∧
    (⟨8, 1, tFinal⟩ : SState).table.get pos4.key = some (((-2 : Int) % 256).toNat) :=
  ⟨by decide, by decide,
   c9_final_bound_written (negamax 1000 zeroClock 0) pos4 columnOrder (-5) 5 (-2)
     ⟨1, 1, resetTable⟩ ⟨8, 1, tFinal⟩
     (fun q a b s x s1 h => negamax_length 1000 zeroClock 0 q a b s x s1 h)
     (by decide) (by decide) (by decide) (by decide) (by decide) (by decide)⟩

/-! ## Claim C5: key injectivity over reachable boards

The board packs each column into 7 bits (`HEIGHT + 1`).  We reason in
base-128 digits: `colField x c` is column `c` of bitboard `x`.  The
invariant says each mask column is a low block `2 ^ h - 1` of `h ≤ 6`
bits, `currentPosition` is a submask of `mask`, and `moves` is the sum
of the heights; injectivity of `key = currentPosition + mask` follows
because column sums `pos + (2 ^ h - 1)` are carry-free and decode `h`
and `pos` uniquely. -/

/-- Bits of `a + 2 ^ w * b` for `a < 2 ^ w`: low bits come from `a`,
high bits from `b`. -/
theorem testBit_add_mul_two_pow (w a b i : Nat) (ha : a < 2 ^ w) :
    (a + 2 ^ w * b).testBit i = if i < w then a.testBit i else b.testBit (i - w) := by
  by_cases hi : i < w
  · rw [if_pos hi]
    have hmod : (a + 2 ^ w * b) % 2 ^ w = a % 2 ^ w := Nat.add_mul_mod_self_left a (2 ^ w) b
    have h1 := Nat.testBit_mod_two_pow (a + 2 ^ w * b) w i
    have h2 := Nat.testBit_mod_two_pow a w i
    rw [hmod, h2] at h1
    simp [hi] at h1
    exact h1.symm
  · rw [if_neg hi]
    have hs : (a + 2 ^ w * b) >>> w = b := by
      rw [Nat.shiftRight_eq_div_pow, Nat.add_mul_div_left _ _ (Nat.two_pow_pos w),
        Nat.div_eq_of_lt ha, Nat.zero_add]
    conv_rhs => rw [← hs]
    rw [Nat.testBit_shiftRight]
    congr 1
    omega

/-- Bitwise or splits along a power-of-two boundary. -/
theorem lor_split (w a1 a2 b1 b2 : Nat) (ha : a1 < 2 ^ w) (hb : b1 < 2 ^ w) :
    (a1 + 2 ^ w * a2) ||| (b1 + 2 ^ w * b2) = (a1 ||| b1) + 2 ^ w * (a2 ||| b2) := by
  apply Nat.eq_of_testBit_eq
  intro i
  rw [Nat.testBit_lor, testBit_add_mul_two_pow w a1 a2 i ha,
    testBit_add_mul_two_pow w b1 b2 i hb,
    testBit_add_mul_two_pow w (a1 ||| b1) (a2 ||| b2) i (Nat.or_lt_two_pow ha hb)]
  by_cases hi : i < w <;> simp [hi, Nat.testBit_lor]

theorem colField_lt (x c : Nat) : colField x c < 128 := Nat.mod_lt _ (by decide)

/-- Digit-wise addition without carries. -/
theorem add_digits (a b : Nat) (h : ∀ c, colField a c + colField b c < 128) :
    ∀ c, (a + b) / 128 ^ c = a / 128 ^ c + b / 128 ^ c ∧
      colField (a + b) c = colField a c + colField b c := by
  intro c
  induction c with
  | zero =>
    have h0 := h 0
    unfold colField at h0 ⊢
    simp only [pow_zero, Nat.div_one] at h0 ⊢
    exact ⟨trivial, by omega⟩
  | succ c ih =>
    obtain ⟨hdiv, _⟩ := ih
    have hc := h c
    have hc1 := h (c + 1)
    unfold colField at hc hc1 ⊢
    rw [pow_succ, ← Nat.div_div_eq_div_mul, ← Nat.div_div_eq_div_mul] at hc1
    rw [pow_succ, ← Nat.div_div_eq_div_mul, ← Nat.div_div_eq_div_mul,
      ← Nat.div_div_eq_div_mul, hdiv]
    constructor
    · omega
    · omega

/-- A number below `128 ^ n` is determined by its first `n` digits. -/
theorem eq_of_colField_eq : ∀ (n a b : Nat), a < 128 ^ n → b < 128 ^ n →
    (∀ c, c < n → colField a c = colField b c) → a = b := by
  intro n
  induction n with
  | zero =>
    intro a b ha hb _
    simp only [pow_zero, Nat.lt_one_iff] at ha hb
    omega
  | succ n ih =>
    intro a b ha hb h
    have h0 := h 0 (Nat.succ_pos n)
    unfold colField at h0
    simp only [pow_zero, Nat.div_one] at h0
    have hdiv : a / 128 = b / 128 := by
      apply ih
      · rw [Nat.div_lt_iff_lt_mul (by norm_num)]
        calc a < 128 ^ (n + 1) := ha
          _ = 128 ^ n * 128 := by rw [pow_succ]
      · rw [Nat.div_lt_iff_lt_mul (by norm_num)]
        calc b < 128 ^ (n + 1) := hb
          _ = 128 ^ n * 128 := by rw [pow_succ]
      · intro c hc
        have := h (c + 1) (by omega)
        unfold colField at this ⊢
        rw [Nat.div_div_eq_div_mul, Nat.div_div_eq_div_mul, ← pow_succ']
        exact this
    omega

/-- Uniqueness of a column block decomposition: the sum `2 ^ h - 1 + p`
with `p < 2 ^ h` determines `h` and `p`. -/
theorem col_block_inj (h h' p p' : Nat) (hh : h ≤ 6) (hh' : h' ≤ 6)
    (hp : p < 2 ^ h) (hp' : p' < 2 ^ h')
    (heq : 2 ^ h - 1 + p = 2 ^ h' - 1 + p') : h = h' ∧ p = p' := by
  interval_cases h <;> interval_cases h' <;> omega

theorem colField_eq_shift_and (x c : Nat) : colField x c = (x >>> (7 * c)) &&& 127 := by
  unfold colField
  rw [show (127 : Nat) = 2 ^ 7 - 1 from rfl, Nat.and_pow_two_sub_one_eq_mod,
    Nat.shiftRight_eq_div_pow]
  congr 2
  rw [pow_mul]
  norm_num

theorem testBit_colField (x c i : Nat) (hi : i < 7) :
    (colField x c).testBit i = x.testBit (7 * c + i) := by
  rw [colField_eq_shift_and, show (127 : Nat) = 2 ^ 7 - 1 from rfl,
    Nat.and_pow_two_sub_one_eq_mod, Nat.testBit_mod_two_pow, Nat.testBit_shiftRight]
  simp [hi]

/-- A submask has digit-wise smaller columns. -/
theorem colField_le_of_and_eq (a b c : Nat) (h : a &&& b = a) :
    colField a c ≤ colField b c := by
  have hand : colField a c &&& colField b c = colField a c := by
    apply Nat.eq_of_testBit_eq
    intro i
    rw [Nat.testBit_land]
    by_cases hi : i < 7
    · rw [testBit_colField _ _ _ hi, testBit_colField _ _ _ hi, ← Nat.testBit_land, h]
    · have hle : (2 : Nat) ^ 7 ≤ 2 ^ i := Nat.pow_le_pow_right (by norm_num) (by omega)
      rw [Nat.testBit_lt_two_pow (lt_of_lt_of_le (colField_lt a c) hle),
        Nat.testBit_lt_two_pow (lt_of_lt_of_le (colField_lt b c) hle)]
      rfl
  calc colField a c = colField a c &&& colField b c := hand.symm
    _ ≤ colField b c := Nat.and_le_right

/-- The new current player's stones stay inside the new mask. -/
theorem xor_subset_lor (pos mask z : Nat) (h : pos &&& mask = pos) :
    (pos ^^^ mask) &&& (mask ||| z) = pos ^^^ mask := by
  apply Nat.eq_of_testBit_eq
  intro i
  have hb : (pos.testBit i && mask.testBit i) = pos.testBit i := by
    rw [← Nat.testBit_land, h]
  rw [Nat.testBit_land, Nat.testBit_xor, Nat.testBit_lor]
  revert hb
  cases hp : pos.testBit i <;> cases hm : mask.testBit i <;> intro hb <;> simp_all

theorem bottomMask_eq (c : Nat) : bottomMask c = 128 ^ c := by
  unfold bottomMask
  rw [Nat.shiftLeft_eq, one_mul, show HEIGHT + 1 = 7 from rfl, mul_comm c 7, pow_mul]
  norm_num

/-- `canPlay` means the top playable cell (bit 5 of the column field) is
free, so the column holds at most 5 stones. -/
theorem height_le_five_of_canPlay (p : Position) (c h : Nat)
    (hcp : p.canPlay c = true) (hcol : colField p.mask c = 2 ^ h - 1) (hh : h ≤ 6) :
    h ≤ 5 := by
  by_contra hgt
  have h6 : h = 6 := by omega
  have htop : topMask c = 2 ^ (7 * c + 5) := by
    unfold topMask
    rw [show HEIGHT - 1 = 5 from rfl, show HEIGHT + 1 = 7 from rfl,
      Nat.shiftLeft_eq, Nat.shiftLeft_eq, one_mul, ← pow_add, mul_comm c 7]
    congr 1
    omega
  have h0 : p.mask &&& topMask c = 0 := by
    unfold Position.canPlay at hcp
    simpa using hcp
  rw [htop] at h0
  have hbit : p.mask.testBit (7 * c + 5) = false := by
    have hpow := Nat.and_two_pow p.mask (7 * c + 5)
    rw [h0] at hpow
    cases htb : p.mask.testBit (7 * c + 5)
    · rfl
    · rw [htb] at hpow
      simp at hpow
      exact absurd hpow.symm (Nat.pos_iff_ne_zero.mp (Nat.two_pow_pos _))
  have hbit5 : (colField p.mask c).testBit 5 = true := by
    rw [hcol, h6]
    decide
  rw [testBit_colField _ _ _ (by norm_num), hbit] at hbit5
  exact Bool.noConfusion hbit5

theorem lor_succ_block (h : Nat) (hh : h ≤ 5) :
    ((2 ^ h - 1) ||| 2 ^ h) = 2 ^ (h + 1) - 1 := by
  interval_cases h <;> decide

/-- Digits of `lo + 128 ^ c * (d + 128 * hi)` with `lo < 128 ^ c` and
`d < 128`: digit `c` is `d`, lower digits come from `lo`, higher ones
from `hi`. -/
theorem colField_decomp (lo d hi c : Nat) (hlo : lo < 128 ^ c) (hd : d < 128) :
    colField (lo + 128 ^ c * (d + 128 * hi)) c = d ∧
    (∀ e, e < c → colField (lo + 128 ^ c * (d + 128 * hi)) e = colField lo e) ∧
    (∀ e, colField (lo + 128 ^ c * (d + 128 * hi)) (c + 1 + e) = colField hi e) := by
  refine ⟨?_, ?_, ?_⟩
  · unfold colField
    rw [Nat.add_mul_div_left _ _ (pow_pos (by norm_num) c), Nat.div_eq_of_lt hlo,
      Nat.zero_add]
    omega
  · intro e he
    unfold colField
    have hsplit : (128 : Nat) ^ c = 128 ^ e * 128 ^ (c - e) := by
      rw [← pow_add]
      congr 1
      omega
    have hstep : (lo + 128 ^ c * (d + 128 * hi)) / 128 ^ e =
        lo / 128 ^ e + 128 ^ (c - e) * (d + 128 * hi) := by
      rw [hsplit, mul_assoc, Nat.add_mul_div_left _ _ (pow_pos (by norm_num) e)]
    rw [hstep]
    obtain ⟨q, hq⟩ : (128 : Nat) ∣ 128 ^ (c - e) := dvd_pow_self 128 (by omega)
    rw [hq, mul_assoc]
    omega
  · intro e
    unfold colField
    have h1 : (lo + 128 ^ c * (d + 128 * hi)) / 128 ^ (c + 1) = hi := by
      have hx : lo + 128 ^ c * (d + 128 * hi) = (lo + 128 ^ c * d) + 128 ^ (c + 1) * hi := by
        rw [pow_succ]
        ring
      rw [hx, Nat.add_mul_div_left _ _ (pow_pos (by norm_num) (c + 1))]
      have h2 : 128 ^ c * d + 128 ^ c ≤ 128 ^ c * 128 := by
        have h3 := Nat.mul_le_mul_left (128 ^ c) (show d + 1 ≤ 128 by omega)
        rw [Nat.mul_add, Nat.mul_one] at h3
        exact h3
      have hlt : lo + 128 ^ c * d < 128 ^ (c + 1) := by
        rw [pow_succ]
        omega
      rw [Nat.div_eq_of_lt hlt, Nat.zero_add]
    rw [show c + 1 + e = (c + 1) + e from rfl, pow_add, ← Nat.div_div_eq_div_mul, h1]

/-- Every number splits at digit `c`. -/
theorem digit_decomp (x c : Nat) :
    x = x % 128 ^ c + 128 ^ c * (colField x c + 128 * (x / 128 ^ (c + 1))) := by
  have hdd : x / 128 ^ c / 128 = x / 128 ^ (c + 1) := by
    rw [Nat.div_div_eq_div_mul, ← pow_succ]
  have hA : colField x c + 128 * (x / 128 ^ (c + 1)) = x / 128 ^ c := by
    unfold colField
    rw [← hdd]
    omega
  rw [hA, Nat.add_comm]
  exact (Nat.div_add_mod x (128 ^ c)).symm

theorem lor_block_step (h hi : Nat) (hh : h ≤ 5) :
    ((2 ^ h - 1) + 128 * hi) ||| (2 ^ h + 128 * hi) = (2 ^ (h + 1) - 1) + 128 * hi := by
  have h2le : (2 : Nat) ^ h ≤ 32 := by
    calc (2 : Nat) ^ h ≤ 2 ^ 5 := Nat.pow_le_pow_right (by norm_num) hh
      _ = 32 := by norm_num
  have hb1 : 2 ^ h - 1 < 2 ^ 7 := by norm_num; omega
  have hb2 : (2 : Nat) ^ h < 2 ^ 7 := by norm_num; omega
  rw [show (128 : Nat) = 2 ^ 7 by norm_num, lor_split 7 _ _ _ _ hb1 hb2, Nat.or_self,
    lor_succ_block h hh]

theorem lor_decomp_step (lo hi h c : Nat) (hlo : lo < 128 ^ c) (hh : h ≤ 5) :
    (lo + 128 ^ c * ((2 ^ h - 1) + 128 * hi)) ||| (lo + 128 ^ c * (2 ^ h + 128 * hi)) =
      lo + 128 ^ c * ((2 ^ (h + 1) - 1) + 128 * hi) := by
  have h128 : (128 : Nat) ^ c = 2 ^ (7 * c) := by
    rw [show (128 : Nat) = 2 ^ 7 by norm_num, ← pow_mul]
  rw [h128] at hlo ⊢
  rw [lor_split (7 * c) _ _ _ _ hlo hlo, Nat.or_self, lor_block_step h hi hh]

/-- The mask update of `play`, in decomposed form: the played column's
block grows by one bit, everything else is untouched. -/
theorem mask_play_eq (mask c h : Nat) (hcol : colField mask c = 2 ^ h - 1) (hh : h ≤ 5) :
    mask ||| (mask + 128 ^ c) =
      mask % 128 ^ c + 128 ^ c * ((2 ^ (h + 1) - 1) + 128 * (mask / 128 ^ (c + 1))) := by
  have hdecomp : mask = mask % 128 ^ c +
      128 ^ c * ((2 ^ h - 1) + 128 * (mask / 128 ^ (c + 1))) := by
    conv_lhs => rw [digit_decomp mask c]
    rw [hcol]
  have h2pos : (0 : Nat) < 2 ^ h := Nat.two_pow_pos h
  have hplus : mask + 128 ^ c = mask % 128 ^ c +
      128 ^ c * (2 ^ h + 128 * (mask / 128 ^ (c + 1))) := by
    conv_lhs => rw [hdecomp]
    rw [Nat.add_assoc, ← Nat.mul_succ]
    congr 2
    omega
  calc mask ||| (mask + 128 ^ c)
      = (mask % 128 ^ c + 128 ^ c * ((2 ^ h - 1) + 128 * (mask / 128 ^ (c + 1)))) |||
        (mask % 128 ^ c + 128 ^ c * (2 ^ h + 128 * (mask / 128 ^ (c + 1)))) := by
        rw [← hdecomp, ← hplus]
    _ = mask % 128 ^ c + 128 ^ c * ((2 ^ (h + 1) - 1) + 128 * (mask / 128 ^ (c + 1))) :=
        lor_decomp_step _ _ h c (Nat.mod_lt _ (pow_pos (by norm_num) c)) hh

theorem inv_empty : Inv Position.empty := by
  refine ⟨by decide, ?_, fun _ => 0, fun c => ⟨by simp, ?_⟩, ?_⟩
  · show (0 : Nat) < 128 ^ 7
    positivity
  · show colField 0 c = 2 ^ 0 - 1
    simp [colField]
  · show (0 : Nat) = ∑ _c ∈ Finset.range 7, 0
    simp

/-- Playing a playable column preserves the board invariant. -/
theorem Inv_play (p : Position) (c : Nat) (hcw : c < WIDTH) (hcp : p.canPlay c = true)
    (hinv : Inv p) : Inv (p.play c) := by
  obtain ⟨hsub, hlt, hs, hhs, hmoves⟩ := hinv
  have hh6 := (hhs c).1
  have hcol := (hhs c).2
  have hh5 : hs c ≤ 5 := height_le_five_of_canPlay p c (hs c) hcp hcol hh6
  have hlo : p.mask % 128 ^ c < 128 ^ c := Nat.mod_lt _ (pow_pos (by norm_num) c)
  have h2small : (2 : Nat) ^ (hs c + 1) ≤ 64 := by
    calc (2 : Nat) ^ (hs c + 1) ≤ 2 ^ 6 := Nat.pow_le_pow_right (by norm_num) (by omega)
      _ = 64 := by norm_num
  have h2pos1 : (0 : Nat) < 2 ^ (hs c + 1) := Nat.two_pow_pos _
  have hmask' : (p.play c).mask = p.mask % 128 ^ c +
      128 ^ c * ((2 ^ (hs c + 1) - 1) + 128 * (p.mask / 128 ^ (c + 1))) := by
    show p.mask ||| (p.mask + bottomMask c) = _
    rw [bottomMask_eq]
    exact mask_play_eq p.mask c (hs c) hcol hh5
  have hdec := colField_decomp (p.mask % 128 ^ c) (2 ^ (hs c + 1) - 1)
    (p.mask / 128 ^ (c + 1)) c hlo (by omega)
  have hdecm := colField_decomp (p.mask % 128 ^ c) (colField p.mask c)
    (p.mask / 128 ^ (c + 1)) c hlo (colField_lt _ _)
  have hcw7 : c < 7 := hcw
  refine ⟨?_, ?_, Function.update hs c (hs c + 1), ?_, ?_⟩
  · exact xor_subset_lor p.currentPosition p.mask (p.mask + bottomMask c) hsub
  · rw [hmask']
    have hhi : p.mask / 128 ^ (c + 1) < 128 ^ (6 - c) := by
      rw [Nat.div_lt_iff_lt_mul (pow_pos (by norm_num) (c + 1))]
      calc p.mask < 128 ^ 7 := hlt
        _ = 128 ^ (6 - c) * 128 ^ (c + 1) := by
          rw [← pow_add]
          congr 1
          omega
    have hW : (128 : Nat) ^ (7 - c) = 128 * 128 ^ (6 - c) := by
      rw [← pow_succ']
      congr 1
      omega
    have hmul : 128 * (p.mask / 128 ^ (c + 1) + 1) ≤ 128 * 128 ^ (6 - c) :=
      Nat.mul_le_mul_left _ (by omega)
    rw [Nat.mul_add, Nat.mul_one] at hmul
    have hD : (2 ^ (hs c + 1) - 1) + 128 * (p.mask / 128 ^ (c + 1)) + 1 ≤ 128 ^ (7 - c) := by
      omega
    have h7 : (128 : Nat) ^ c * 128 ^ (7 - c) = 128 ^ 7 := by
      rw [← pow_add]
      congr 1
      omega
    calc p.mask % 128 ^ c +
          128 ^ c * ((2 ^ (hs c + 1) - 1) + 128 * (p.mask / 128 ^ (c + 1)))
        < 128 ^ c + 128 ^ c * ((2 ^ (hs c + 1) - 1) + 128 * (p.mask / 128 ^ (c + 1))) := by
          omega
      _ = 128 ^ c * ((2 ^ (hs c + 1) - 1) + 128 * (p.mask / 128 ^ (c + 1)) + 1) := by
          rw [Nat.mul_succ]
          omega
      _ ≤ 128 ^ c * 128 ^ (7 - c) := Nat.mul_le_mul_left _ hD
      _ = 128 ^ 7 := h7
  · intro d
    by_cases hdc : d = c
    · subst hdc
      rw [Function.update_same]
      refine ⟨by omega, ?_⟩
      rw [hmask']
      exact hdec.1
    · rw [Function.update_noteq hdc]
      refine ⟨(hhs d).1, ?_⟩
      have hmd : colField (p.play c).mask d = colField p.mask d := by
        rcases Nat.lt_or_ge d c with hlt' | hge
        · rw [hmask', hdec.2.1 d hlt']
          conv_rhs => rw [digit_decomp p.mask c]
          rw [hdecm.2.1 d hlt']
        · obtain ⟨e, rfl⟩ : ∃ e, d = c + 1 + e := ⟨d - (c + 1), by omega⟩
          rw [hmask', hdec.2.2 e]
          conv_rhs => rw [digit_decomp p.mask c]
          rw [hdecm.2.2 e]
      rw [hmd]
      exact (hhs d).2
  · show p.moves + 1 = _
    rw [Finset.sum_update_of_mem (Finset.mem_range.mpr hcw7)]
    rw [hmoves, ← Finset.sum_erase_add _ hs (Finset.mem_range.mpr hcw7)]
    rw [Finset.erase_eq]
    omega

theorem reachable_inv (p : Position) (h : Reachable p) : Inv p := by
  induction h with
  | empty => exact inv_empty
  | play q c _ hcw hcp ih => exact Inv_play q c hcw hcp ih

/-- **C5**: for every pair of reachable boards with the same move parity,
equal keys (`currentPosition + mask`) force equal boards: the key sum is
carry-free per 7-bit column, each column decodes its fill height and the
current player's stones there, and the heights determine the move count,
so `key` is injective over all reachable positions. -/
theorem c5_key_injective (p q : Position) (hp : Reachable p) (hq : Reachable q)
    (hpar : p.moves % 2 = q.moves % 2) (hkey : p.key = q.key) : p = q := by
  obtain ⟨hsubp, hltp, hsp, hhsp, hmovp⟩ := reachable_inv p hp
  obtain ⟨hsubq, hltq, hsq, hhsq, hmovq⟩ := reachable_inv q hq
  have hposp : p.currentPosition < 128 ^ 7 :=
    lt_of_le_of_lt (le_trans (le_of_eq hsubp.symm) Nat.and_le_right) hltp
  have hposq : q.currentPosition < 128 ^ 7 :=
    lt_of_le_of_lt (le_trans (le_of_eq hsubq.symm) Nat.and_le_right) hltq
  have hboundp : ∀ d, colField p.currentPosition d + colField p.mask d < 128 := by
    intro d
    have h1 := colField_le_of_and_eq _ _ d hsubp
    have h2 := (hhsp d).2
    have h4 : (2 : Nat) ^ hsp d ≤ 64 := by
      calc (2 : Nat) ^ hsp d ≤ 2 ^ 6 := Nat.pow_le_pow_right (by norm_num) (hhsp d).1
        _ = 64 := by norm_num
    omega
  have hboundq : ∀ d, colField q.currentPosition d + colField q.mask d < 128 := by
    intro d
    have h1 := colField_le_of_and_eq _ _ d hsubq
    have h2 := (hhsq d).2
    have h4 : (2 : Nat) ^ hsq d ≤ 64 := by
      calc (2 : Nat) ^ hsq d ≤ 2 ^ 6 := Nat.pow_le_pow_right (by norm_num) (hhsq d).1
        _ = 64 := by norm_num
    omega
  have hkey' : p.currentPosition + p.mask = q.currentPosition + q.mask := hkey
  have hcol : ∀ d, d < 7 → hsp d = hsq d ∧
      colField p.currentPosition d = colField q.currentPosition d := by
    intro d _
    have h1 := (add_digits _ _ hboundp d).2
    have h2 := (add_digits _ _ hboundq d).2
    rw [hkey'] at h1
    have h3 : colField p.currentPosition d + colField p.mask d =
        colField q.currentPosition d + colField q.mask d := by omega
    have hplt : colField p.currentPosition d < 2 ^ hsp d := by
      have h5 := colField_le_of_and_eq _ _ d hsubp
      rw [(hhsp d).2] at h5
      have h6 := Nat.two_pow_pos (hsp d)
      omega
    have hqlt : colField q.currentPosition d < 2 ^ hsq d := by
      have h5 := colField_le_of_and_eq _ _ d hsubq
      rw [(hhsq d).2] at h5
      have h6 := Nat.two_pow_pos (hsq d)
      omega
    rw [(hhsp d).2, (hhsq d).2] at h3
    have h7 := col_block_inj (hsp d) (hsq d) _ _ (hhsp d).1 (hhsq d).1 hplt hqlt (by omega)
    exact ⟨h7.1, h7.2⟩
  have hmask : p.mask = q.mask := by
    apply eq_of_colField_eq 7 _ _ hltp hltq
    intro d hd
    rw [(hhsp d).2, (hhsq d).2, (hcol d hd).1]
  have hpos : p.currentPosition = q.currentPosition :=
    eq_of_colField_eq 7 _ _ hposp hposq (fun d hd => (hcol d hd).2)
  have hmov : p.moves = q.moves := by
    rw [hmovp, hmovq]
    exact Finset.sum_congr rfl fun d hd => (hcol d (Finset.mem_range.mp hd)).1
  cases p
  cases q
  simp only [Position.mk.injEq]
  exact ⟨hpos, hmask, hmov⟩

/-- Witness for C5: the hypotheses discharged at the one-stone position
after playing the center column. -/
theorem c5_witness :
    (Position.empty.play 3).moves % 2 = (Position.empty.play 3).moves % 2 ∧
    (Position.empty.play 3).key = (Position.empty.play 3).key ∧
    Position.empty.play 3 = Position.empty.play 3 :=
  ⟨rfl, rfl,
   c5_key_injective (Position.empty.play 3) (Position.empty.play 3)
     (Reachable.play Position.empty 3 Reachable.empty (by decide) (by decide))
     (Reachable.play Position.empty 3 Reachable.empty (by decide) (by decide))
     rfl rfl⟩

end Connect4
